import Mathlib

/-!
Shallow embedding of `PoolAllocator<T, kBlockSize>` from `src/pool_allocator.h`.

A slot (`union Chunk` in the source) holds either a forward pointer `next`
to the next free slot, or a constructed element of type `T`.  Slot
addresses are modelled by slot indices within the owned region; the null
pointer is `Option.none`.  An allocator state records whether
`memory_block_` is non-null, the contents of the region's slots, and the
`free_list_` head.  A moved-from allocator has `memory_block := false`,
no slots and a null head.
-/

/-- One slot of the region: the `union Chunk` of the source, last written
either as a free-list link (`Chunk::next`) or as a constructed element
(`Chunk::data`). -/
inductive Chunk (α : Type) where
  | link : Option Nat → Chunk α
  | elem : α → Chunk α
  deriving DecidableEq

/-- State of one `PoolAllocator<T, kBlockSize>` instance.
`memory_block` models `memory_block_ != nullptr`, `slots` the region's
contents (one entry per slot, `slots.length = kBlockSize` when a region is
owned), `free_list` the `free_list_` head as a slot index
(`none` = `nullptr`). -/
structure PoolAllocator (α : Type) where
  memory_block : Bool
  slots : List (Chunk α)
  free_list : Option Nat
  deriving DecidableEq

/-- The single failure signal of `allocate`: `std::bad_alloc`, thrown both
for a count other than 1 and for pool exhaustion. -/
inductive AllocError where
  | badAlloc
  deriving DecidableEq

/-- Read `chunk->next` of slot `i`.  Reading `next` of a slot last written
as an element (or of a slot outside the region) is undefined behaviour in
the C++ source; it is modelled as null and is unreachable under the chain
validity hypotheses used below. -/
def slotNext (slots : List (Chunk α)) (i : Nat) : Option Nat :=
  match slots[i]? with
  | some (Chunk.link n) => n
  | _ => none

/-- `PoolAllocator::allocate(n)` (lines 130-142): throws `std::bad_alloc`
if `n != 1` or the free list is empty; otherwise pops the head, returning
its address and advancing `free_list_` to the popped slot's stored link. -/
def PoolAllocator.allocate (p : PoolAllocator α) (n : Nat) :
    Except AllocError (Nat × PoolAllocator α) :=
  if n ≠ 1 then .error .badAlloc
  else
    match p.free_list with
    | none => .error .badAlloc
    | some i => .ok (i, { p with free_list := slotNext p.slots i })

/-- `PoolAllocator::deallocate(p, n)` (lines 144-149): returns unchanged on
a null pointer or `n != 1`; otherwise writes the old head into the slot's
`next` and makes the slot the new head.  `List.set` out of range is a
no-op, modelling the store through a pointer that does not land in this
instance's region; the update of the `free_list_` member itself happens
unconditionally, exactly as in the source. -/
def PoolAllocator.deallocate (p : PoolAllocator α) (addr : Option Nat) (n : Nat) :
    PoolAllocator α :=
  match addr with
  | none => p
  | some i =>
    if n ≠ 1 then p
    else { p with slots := p.slots.set i (Chunk.link p.free_list), free_list := some i }

/-- `PoolAllocator::PoolAllocator()` (lines 111-128): allocates a region of
`N = kBlockSize` slots (contents initially indeterminate, modelled by a
placeholder that the constructor then overwrites), links slot `i` to slot
`i+1` for `i < N-1`, writes a null link into the last slot, and sets the
head to slot 0. -/
def mkFresh (α : Type) (N : Nat) : PoolAllocator α :=
  let s0 : List (Chunk α) := List.replicate N (Chunk.link none)
  let s1 := (List.range (N - 1)).foldl (fun s i => s.set i (Chunk.link (some (i + 1)))) s0
  let s2 := s1.set (N - 1) (Chunk.link none)
  { memory_block := true, slots := s2, free_list := some 0 }

/-- `PoolAllocator::PoolAllocator(PoolAllocator&&)` (lines 92-96): the
destination takes over `memory_block_` and `free_list_` verbatim; the
source's members are nulled.  Returns (destination, moved-from source). -/
def moveCtor (p : PoolAllocator α) : PoolAllocator α × PoolAllocator α :=
  ({ memory_block := p.memory_block, slots := p.slots, free_list := p.free_list },
   { memory_block := false, slots := [], free_list := none })

/-- `is_valid()` (line 159): whether the instance owns a region. -/
def PoolAllocator.is_valid (p : PoolAllocator α) : Bool :=
  p.memory_block

/-- The slots visited by walking the free chain from `head`, reading each
visited slot's stored link, with at most `fuel` steps.  The scans in the
copy constructor (lines 51-56 and 62-77) walk the chain unboundedly; they
terminate exactly when the chain is acyclic, and an acyclic in-region
chain of a region of `N` slots visits at most `N` distinct slots, so
`fuel = N` makes this walk exact (proved below for represented chains). -/
def walkChain (slots : List (Chunk α)) : Option Nat → Nat → List Nat
  | _, 0 => []
  | none, _ => []
  | some i, fuel + 1 => i :: walkChain slots (slotNext slots i) fuel

/-- Outcome of the copy constructor.  `threw` records the observable state
when a C++ exception leaves the constructor: which already-copied elements
were never destroyed, and whether the freshly allocated region was
released before propagation. -/
inductive CopyResult (α : Type) where
  | ok : PoolAllocator α → CopyResult α
  | threw : List Nat → Bool → CopyResult α
  deriving DecidableEq

/-- The element-copy loop of the copy constructor (lines 45-60), iterating
over the index list `idxs` (in the source: `i = 0 .. kBlockSize-1`).
`c` models the element type's copy constructor (`none` = it throws);
`freeIdxs` is the set of slots found on the source free chain; `dst` the
destination region contents; `copied` the indices already copy-constructed.
On a throw the loop body has no try/catch in the source, so the error
carries the list of elements constructed so far (they are never destroyed).
A live source slot not last written as an element is undefined behaviour in
the source (union read); modelled as skipping the construction, and
unreachable under the validity hypotheses used below. -/
def copyElems (c : α → Option α) (srcSlots : List (Chunk α)) (freeIdxs : List Nat) :
    List Nat → List (Chunk α) → List Nat → Except (List Nat) (List (Chunk α))
  | [], dst, _ => .ok dst
  | i :: rest, dst, copied =>
    if i ∈ freeIdxs then copyElems c srcSlots freeIdxs rest dst copied
    else
      match srcSlots[i]? with
      | some (Chunk.elem v) =>
        match c v with
        | some w => copyElems c srcSlots freeIdxs rest (dst.set i (Chunk.elem w)) (copied ++ [i])
        | none => .error copied
      | _ => copyElems c srcSlots freeIdxs rest dst copied

/-- The chain-rebuild loop of the copy constructor (lines 61-78): walks the
source chain's index sequence `fl`, writing into each visited destination
slot the link to the next visited slot, and a null link into the last. -/
def rebuildChain (dst : List (Chunk α)) : List Nat → List (Chunk α)
  | [] => dst
  | [i] => dst.set i (Chunk.link none)
  | i :: j :: rest => rebuildChain (dst.set i (Chunk.link (some j))) (j :: rest)

/-- `PoolAllocator::PoolAllocator(const PoolAllocator&)` (lines 38-82).
`oom` models `::operator new` failing (the ctor catches `std::bad_alloc`
and rethrows before any region or element exists, so nothing leaks on that
path).  Otherwise: a fresh region is allocated (uninitialized contents,
placeholder `link none`), each slot not found on the source free chain has
its element copy-constructed at the same index, then the free chain is
rebuilt over the new region following the source chain's index sequence.
An element-copy throw propagates out of the loop, which has no handler:
the elements copied so far are not destroyed and the new region is not
released (`threw copied false`). -/
def copyCtor (oom : Bool) (c : α → Option α) (src : PoolAllocator α) : CopyResult α :=
  if oom then CopyResult.threw [] true
  else
    let N := src.slots.length
    let freeIdxs := walkChain src.slots src.free_list N
    let dst0 : List (Chunk α) := List.replicate N (Chunk.link none)
    match copyElems c src.slots freeIdxs (List.range N) dst0 [] with
    | .error copied => CopyResult.threw copied false
    | .ok dstSlots =>
      CopyResult.ok
        { memory_block := true,
          slots := rebuildChain dstSlots freeIdxs,
          free_list := freeIdxs.head? }

/-- `PoolAllocator::operator=(const PoolAllocator&)` (lines 84-90),
copy-and-swap: on self-assignment (`this == &other`, modelled by `same`)
nothing happens; otherwise a temporary copy of `other` is built and
swapped into `*this` (the old region travels out in the temporary and is
released by its destructor).  If the copy throws, the swap never runs and
`*this` is untouched.  Returns (final state of `*this`, whether an
exception propagated). -/
def copyAssign (oom : Bool) (c : α → Option α) (self other : PoolAllocator α)
    (same : Bool) : PoolAllocator α × Bool :=
  if same then (self, false)
  else
    match copyCtor oom c other with
    | CopyResult.ok temp => (temp, false)
    | CopyResult.threw _ _ => (self, true)

/-- Run `k` consecutive `allocate(1)` calls, collecting the returned
addresses; `none` if any of them throws. -/
def allocRun (p : PoolAllocator α) : Nat → Option (List Nat × PoolAllocator α)
  | 0 => some ([], p)
  | k + 1 =>
    match p.allocate 1 with
    | .error _ => none
    | .ok (a, q) =>
      match allocRun q k with
      | none => none
      | some (as, r) => some (a :: as, r)

/-- The free chain through `slots` starting at `head` is exactly the index
sequence `fl`: the head is the first entry of `fl`, each listed slot
stores the link to the next entry, and the last listed slot stores the
null terminator. -/
def ChainRepAt (slots : List (Chunk α)) (head : Option Nat) (fl : List Nat) : Prop :=
  head = fl.head? ∧
  ∀ j i, fl[j]? = some i → slots[i]? = some (Chunk.link fl[(j + 1)]?)

/-- The free chain of `p` is exactly the index sequence `fl`.  A chain
represented by a duplicate-free `fl` has no cycle. -/
def ChainRep (p : PoolAllocator α) (fl : List Nat) : Prop :=
  ChainRepAt p.slots p.free_list fl

/-- One client call on an allocator instance, instrumented with the list
`live` of addresses currently allocated and not yet deallocated.  The
deallocate steps respect the documented precondition: a released address
was previously returned by `allocate` on this instance and is not
currently free (`a ∈ live`); null or wrong-count deallocations and failed
allocations are included as the no-ops / non-mutating throws they are. -/
inductive Step (α : Type) :
    PoolAllocator α × List Nat → PoolAllocator α × List Nat → Prop where
  | alloc {p q : PoolAllocator α} {live : List Nat} {a : Nat} :
      p.allocate 1 = .ok (a, q) → Step α (p, live) (q, a :: live)
  | allocFail {p : PoolAllocator α} {live : List Nat} {n : Nat} :
      p.allocate n = .error .badAlloc → Step α (p, live) (p, live)
  | dealloc {p : PoolAllocator α} {live : List Nat} {a : Nat} :
      a ∈ live → Step α (p, live) (p.deallocate (some a) 1, live.erase a)
  | deallocNull {p : PoolAllocator α} {live : List Nat} {n : Nat} :
      Step α (p, live) (p.deallocate none n, live)
  | deallocBadCount {p : PoolAllocator α} {live : List Nat} {a n : Nat} :
      n ≠ 1 → Step α (p, live) (p.deallocate (some a) n, live)

/-- Invariant tying an allocator state to its live-address instrumentation:
some duplicate-free, in-region index list represents the free chain, the
live addresses are in-region, duplicate-free and disjoint from the chain,
and the region has `N` slots. -/
def GoodState (N : Nat) (p : PoolAllocator α) (live : List Nat) : Prop :=
  ∃ fl : List Nat,
    ChainRep p fl ∧ fl.Nodup ∧ (∀ i ∈ fl, i < N) ∧
    live.Nodup ∧ (∀ a ∈ live, a < N) ∧ (∀ a ∈ live, a ∉ fl) ∧
    p.slots.length = N

/-! ### Basic lemmas about the default constructor's region -/

theorem foldl_set_length (f : Nat → Chunk α) (l : List Nat) (s : List (Chunk α)) :
    (l.foldl (fun s i => s.set i (f i)) s).length = s.length := by
  induction l generalizing s with
  | nil => rfl
  | cons i t ih => rw [List.foldl_cons, ih, List.length_set]

theorem foldl_set_get (f : Nat → Chunk α) (k j : Nat) (s : List (Chunk α)) :
    ((List.range k).foldl (fun s i => s.set i (f i)) s)[j]? =
      if j < k ∧ j < s.length then some (f j) else s[j]? := by
  induction k with
  | zero => simp
  | succ k ih =>
    rw [List.range_succ, List.foldl_append, List.foldl_cons, List.foldl_nil,
      List.getElem?_set, foldl_set_length, ih]
    by_cases hkj : k = j
    · subst hkj
      by_cases hlen : k < s.length
      · simp [hlen]
      · simp [hlen, List.getElem?_eq_none (Nat.le_of_not_lt hlen)]
    · by_cases hjk : j < k
      · have h1 : j < k + 1 := by omega
        simp [hkj, hjk, h1]
      · have : ¬ j < k + 1 := by omega
        simp [hkj, hjk, this]

theorem mkFresh_slots_length (α : Type) (N : Nat) : (mkFresh α N).slots.length = N := by
  show ((_ : List (Chunk α)).set _ _).length = N
  rw [List.length_set, foldl_set_length, List.length_replicate]

theorem mkFresh_slots_get {N i : Nat} (hi : i < N) :
    (mkFresh α N).slots[i]? =
      some (Chunk.link (if i + 1 = N then none else some (i + 1))) := by
  show ((_ : List (Chunk α)).set (N - 1) _)[i]? = _
  rw [List.getElem?_set, foldl_set_length, List.length_replicate]
  by_cases hlast : N - 1 = i
  · have h1 : i + 1 = N := by omega
    simp [hlast, hi, h1]
  · have h2 : ¬ i + 1 = N := by omega
    have h3 : i < N - 1 := by omega
    rw [if_neg hlast, foldl_set_get, if_pos ⟨h3, by simpa [List.length_replicate] using hi⟩,
      if_neg h2]

theorem mkFresh_chainRep {N : Nat} (hN : 0 < N) :
    ChainRep (mkFresh α N) (List.range N) := by
  constructor
  · show some 0 = (List.range N).head?
    rw [List.head?_range, if_neg (Nat.pos_iff_ne_zero.mp hN)]
  · intro j i hj
    have hjN : j < N := by
      by_contra hc
      rw [List.getElem?_eq_none (by simpa using Nat.le_of_not_lt hc)] at hj
      exact Option.noConfusion hj
    rw [List.getElem?_range hjN] at hj
    obtain rfl : j = i := Option.some.inj hj
    rw [mkFresh_slots_get hjN]
    by_cases h1 : j + 1 < N
    · rw [List.getElem?_range h1, if_neg (by omega)]
    · rw [List.getElem?_eq_none (by simpa using Nat.le_of_not_lt h1), if_pos (by omega)]

/-! ### Lemmas about allocate / deallocate -/

theorem allocate_none (p : PoolAllocator α) (h : p.free_list = none) :
    p.allocate 1 = .error AllocError.badAlloc := by
  simp [PoolAllocator.allocate, h]

theorem allocate_some (p : PoolAllocator α) (i : Nat) (h : p.free_list = some i) :
    p.allocate 1 = .ok (i, { p with free_list := slotNext p.slots i }) := by
  simp [PoolAllocator.allocate, h]

theorem allocate_ok_inv {p q : PoolAllocator α} {a : Nat}
    (h : p.allocate 1 = .ok (a, q)) :
    p.free_list = some a ∧ q = { p with free_list := slotNext p.slots a } := by
  cases hfl : p.free_list with
  | none => rw [allocate_none p hfl] at h; exact Except.noConfusion h
  | some i =>
    simp only [PoolAllocator.allocate, if_neg (by omega : ¬ (1 : Nat) ≠ 1), hfl,
      Except.ok.injEq, Prod.mk.injEq] at h
    obtain ⟨rfl, rfl⟩ := h
    exact ⟨rfl, rfl⟩

theorem chainRepAt_tail {slots : List (Chunk α)} {i : Nat} {t : List Nat}
    (h : ∀ j m, (i :: t)[j]? = some m → slots[m]? = some (Chunk.link (i :: t)[(j + 1)]?)) :
    ChainRepAt slots (slotNext slots i) t := by
  constructor
  · have h0 := h 0 i List.getElem?_cons_zero
    rw [slotNext, h0, List.getElem?_cons_succ, List.head?_eq_getElem?]
  · intro j m hm
    have := h (j + 1) m (by rwa [List.getElem?_cons_succ])
    rwa [List.getElem?_cons_succ] at this

theorem chainRep_allocRun (p : PoolAllocator α) (fl : List Nat) (h : ChainRep p fl) :
    allocRun p fl.length = some (fl, { p with free_list := none }) := by
  induction fl generalizing p with
  | nil =>
    obtain ⟨h1, _⟩ := h
    cases p
    simp only [List.head?] at h1
    simp [allocRun, h1]
  | cons i t ih =>
    obtain ⟨h1, h2⟩ := h
    rw [List.head?_eq_getElem?, List.getElem?_cons_zero] at h1
    have hq : ChainRep { p with free_list := slotNext p.slots i } t := chainRepAt_tail h2
    have := ih _ hq
    simp only [List.length_cons, allocRun, PoolAllocator.allocate,
      if_neg (by omega : ¬ (1 : Nat) ≠ 1), h1, this]

/-! ### Claim theorems: construction, allocate, deallocate, move -/

/-- Claim C1: for every block size `N > 0` and element type, starting from
a freshly default-constructed `PoolAllocator`, each of the first `N` calls
to `allocate(1)` succeeds and returns a slot address, and the `(N+1)`-th
call fails with the pool-exhausted condition, surfaced as the standard
allocation failure (`std::bad_alloc`). -/
theorem capacity_bound (α : Type) (N : Nat) (hN : 0 < N) :
    allocRun (mkFresh α N) N = some (List.range N, { mkFresh α N with free_list := none }) ∧
    ({ mkFresh α N with free_list := none } : PoolAllocator α).allocate 1 =
      .error AllocError.badAlloc := by
  have h := chainRep_allocRun (mkFresh α N) (List.range N) (mkFresh_chainRep (α := α) hN)
  rw [List.length_range] at h
  exact ⟨h, allocate_none _ rfl⟩

/-- Witness for `capacity_bound` at `N = 3`, element type `Nat`. -/
theorem capacity_bound_witness :
    allocRun (mkFresh Nat 3) 3 =
      some (List.range 3, { mkFresh Nat 3 with free_list := none }) ∧
    ({ mkFresh Nat 3 with free_list := none } : PoolAllocator Nat).allocate 1 =
      .error AllocError.badAlloc :=
  capacity_bound Nat 3 (by decide)

/-- Claim C9: after default construction, the free chain links the `N`
slots in ascending slot-index order — slot `i` links to slot `i+1`, the
last slot's link is the null terminator — and the chain head is slot 0. -/
theorem fresh_chain_ascending (α : Type) (N : Nat) (hN : 0 < N) :
    (mkFresh α N).free_list = some 0 ∧
    ∀ i, i < N →
      (mkFresh α N).slots[i]? =
        some (Chunk.link (if i + 1 = N then none else some (i + 1))) :=
  ⟨rfl, fun _ hi => mkFresh_slots_get hi⟩

/-- Witness for `fresh_chain_ascending` at `N = 2`, element type `Nat`. -/
theorem fresh_chain_ascending_witness :
    (mkFresh Nat 2).free_list = some 0 ∧
    ∀ i, i < 2 →
      (mkFresh Nat 2).slots[i]? =
        some (Chunk.link (if i + 1 = 2 then none else some (i + 1))) :=
  fresh_chain_ascending Nat 2 (by decide)

/-- Claim C4: move-construction never fails (it is a total function of the
source state, `noexcept` in the source); the destination takes over the
source's region and free-list head exactly (its state equals the source's
prior state, so it behaves as the original did), and afterwards the source
owns no region (`is_valid` false), its head is null, and any `allocate(1)`
on it fails with the pool-exhausted `std::bad_alloc`. -/
theorem move_ctor_spec (α : Type) (p : PoolAllocator α) :
    (moveCtor p).1 = p ∧
    (moveCtor p).2.is_valid = false ∧
    (moveCtor p).2.free_list = none ∧
    (moveCtor p).2.allocate 1 = .error AllocError.badAlloc := by
  refine ⟨?_, rfl, rfl, rfl⟩
  cases p
  rfl

/-- Claim C5: LIFO reuse round-trip.  For every allocator state and every
in-region slot address `a`, `deallocate(a, 1)` followed by `allocate(1)`
succeeds, returns exactly `a`, and leaves the free-list head equal to what
it was before the pair of calls (only slot `a`'s stored link differs). -/
theorem lifo_reuse (p : PoolAllocator α) (a : Nat) (ha : a < p.slots.length) :
    (p.deallocate (some a) 1).allocate 1 =
      .ok (a, { p with slots := p.slots.set a (Chunk.link p.free_list) }) ∧
    ({ p with slots := p.slots.set a (Chunk.link p.free_list) } :
        PoolAllocator α).free_list = p.free_list := by
  refine ⟨?_, rfl⟩
  simp [PoolAllocator.deallocate, PoolAllocator.allocate, slotNext,
    List.getElem?_set_self ha]

/-- Witness for `lifo_reuse`: a capacity-1 pool whose single slot is live
(holding the element 5) with an empty chain; releasing and re-acquiring
slot 0 hands back slot 0 and restores the empty-chain head. -/
theorem lifo_reuse_witness :
    (PoolAllocator.deallocate ⟨true, [Chunk.elem 5], none⟩ (some 0) 1).allocate 1 =
      .ok (0, ({ memory_block := true, slots := [Chunk.link none],
                 free_list := none } : PoolAllocator Nat)) :=
  (lifo_reuse (⟨true, [Chunk.elem 5], none⟩ : PoolAllocator Nat) 0 (by decide)).1

/-- Claim C6: `allocate(n)` fails exactly when `n ≠ 1` or the free chain
is empty, and both failure kinds are surfaced as the same standard
allocation-failure signal (`std::bad_alloc`); when it succeeds it returns
the address of the current chain head and advances the head to that
slot's stored link, changing nothing else (same region, same slots). -/
theorem allocate_spec (p : PoolAllocator α) (n : Nat) :
    (p.allocate n = .error AllocError.badAlloc ↔ (n ≠ 1 ∨ p.free_list = none)) ∧
    (∀ i, p.free_list = some i →
      p.allocate 1 = .ok (i, { p with free_list := slotNext p.slots i })) := by
  constructor
  · constructor
    · intro h
      by_cases hn : n = 1
      · subst hn
        cases hfl : p.free_list with
        | none => exact Or.inr rfl
        | some i =>
          rw [allocate_some p i hfl] at h
          exact Except.noConfusion h
      · exact Or.inl hn
    · intro h
      rcases h with h | h
      · simp [PoolAllocator.allocate, h]
      · by_cases hn : n = 1
        · subst hn
          exact allocate_none p h
        · simp [PoolAllocator.allocate, hn]
  · exact fun i hi => allocate_some p i hi

/-- Witness for `allocate_spec` on a concrete pool: a wrong-count request
fails, and with head slot 0 a single-slot request pops slot 0. -/
theorem allocate_spec_witness :
    ((PoolAllocator.allocate (α := Nat) ⟨true, [Chunk.link none], some 0⟩ 2 =
        .error AllocError.badAlloc ↔ ((2 : Nat) ≠ 1 ∨ (some 0 : Option Nat) = none)) ∧
      PoolAllocator.allocate (α := Nat) ⟨true, [Chunk.link none], some 0⟩ 1 =
        .ok (0, { memory_block := true, slots := [Chunk.link none], free_list := none })) := by
  have h := allocate_spec (⟨true, [Chunk.link none], some 0⟩ : PoolAllocator Nat) 2
  exact ⟨h.1, h.2 0 rfl⟩

/-- Claim C7 counterexample: on a moved-from allocator (no region, null
head), `deallocate` of a non-null address with count 1 is *not* a silent
no-op — the source never checks `memory_block_`, so the address becomes
the new `free_list_` head and the state changes. -/
theorem dealloc_movedFrom_not_noop :
    PoolAllocator.deallocate (α := Nat) ⟨false, [], none⟩ (some 0) 1 ≠
      (⟨false, [], none⟩ : PoolAllocator Nat) := by
  decide

/-- Claim C7 amended: `deallocate` never throws (it is a total function,
`noexcept` in the source) and is a silent no-op exactly when the address
is null or the count is not 1; with a non-null address and count 1 it
always pushes the address as the new head — including on a moved-from
allocator owning no region, whose state therefore changes. -/
theorem deallocate_spec (p : PoolAllocator α) (n : Nat) :
    (p.deallocate none n = p) ∧
    (∀ a, n ≠ 1 → p.deallocate (some a) n = p) ∧
    (∀ a, p.deallocate (some a) 1 =
      { p with slots := p.slots.set a (Chunk.link p.free_list), free_list := some a }) := by
  refine ⟨rfl, fun a hn => ?_, fun a => ?_⟩
  · simp [PoolAllocator.deallocate, hn]
  · simp [PoolAllocator.deallocate]

/-- Witness for `deallocate_spec` on a concrete moved-from pool with
count 2. -/
theorem deallocate_spec_witness :
    (PoolAllocator.deallocate (α := Nat) ⟨false, [], none⟩ none 2 =
      (⟨false, [], none⟩ : PoolAllocator Nat)) ∧
    (PoolAllocator.deallocate (α := Nat) ⟨false, [], none⟩ (some 0) 2 =
      (⟨false, [], none⟩ : PoolAllocator Nat)) ∧
    (PoolAllocator.deallocate (α := Nat) ⟨false, [], none⟩ (some 0) 1 =
      (⟨false, [], some 0⟩ : PoolAllocator Nat)) := by
  have h := deallocate_spec (⟨false, [], none⟩ : PoolAllocator Nat) 2
  exact ⟨h.1, h.2.1 0 (by decide), h.2.2 0⟩

/-- Claim C3 (a bug in the code): the element-copy loop of the copy
constructor has no try/catch, so an element copy constructor throwing does
*not* unwind.  At the concrete source pool `[elem 0, elem 1]` with an
empty free chain and a copy function that throws on the value 1, the copy
of slot 0 is constructed, the copy of slot 1 throws, and the constructor
exits with element 0 never destroyed and the new region never released. -/
theorem copy_throw_leaks :
    copyCtor false (fun v => if v = 0 then some v else none)
      (⟨true, [Chunk.elem 0, Chunk.elem 1], none⟩ : PoolAllocator Nat) =
      CopyResult.threw [0] false := by
  decide

/-- Claim C10: copy assignment is copy-and-swap.  Physical self-assignment
(`this == &other`) leaves the target unchanged and throws nothing; if the
copy of the right-hand side fails (out-of-memory, or an element copy
throwing), the swap never runs and the target retains exactly its prior
region and free chain.  The source is passed by const reference and only
read (the model is a pure function of it). -/
theorem copy_assign_spec (oom : Bool) (c : α → Option α)
    (self other : PoolAllocator α) :
    (copyAssign oom c self self true = (self, false)) ∧
    (∀ leaked released, copyCtor oom c other = CopyResult.threw leaked released →
      copyAssign oom c self other false = (self, true)) := by
  refine ⟨rfl, fun leaked released h => ?_⟩
  simp [copyAssign, h]

/-- Witness for `copy_assign_spec`: with `oom = true` the copy of the
right-hand side fails and the target keeps its state. -/
theorem copy_assign_spec_witness :
    (copyAssign true some (mkFresh Nat 2) (mkFresh Nat 2) true =
      (mkFresh Nat 2, false)) ∧
    (copyAssign true some (mkFresh Nat 2) (mkFresh Nat 2) false =
      (mkFresh Nat 2, true)) := by
  have h := copy_assign_spec true some (mkFresh Nat 2) (mkFresh Nat 2)
  exact ⟨h.1, h.2 [] true rfl⟩

/-! ### The reachable-state invariant -/

theorem deallocate_push (p : PoolAllocator α) (a : Nat) :
    p.deallocate (some a) 1 =
      { p with slots := p.slots.set a (Chunk.link p.free_list), free_list := some a } := by
  simp [PoolAllocator.deallocate]

theorem goodState_step {N : Nat} {p q : PoolAllocator α} {live live2 : List Nat}
    (hg : GoodState N p live) (hs : Step α (p, live) (q, live2)) :
    GoodState N q live2 := by
  obtain ⟨fl, ⟨hhead, hlink⟩, hnd, hbound, hlnd, hlbound, hdisj, hlen⟩ := hg
  cases hs with
  | @alloc _ _ _ a h =>
    obtain ⟨hfl, rfl⟩ := allocate_ok_inv h
    cases fl with
    | nil => rw [hhead] at hfl; exact Option.noConfusion hfl
    | cons b fl2 =>
      rw [hhead, List.head?_cons] at hfl
      obtain rfl : a = b := (Option.some.inj hfl).symm
      have hrep2 : ChainRep { p with free_list := slotNext p.slots a } fl2 :=
        chainRepAt_tail hlink
      have hmem_a : a ∈ a :: fl2 := List.mem_cons_self a fl2
      refine ⟨fl2, hrep2, (List.nodup_cons.mp hnd).2,
        fun i hi => hbound i (List.mem_cons_of_mem _ hi), ?_, ?_, ?_, hlen⟩
      · exact List.nodup_cons.mpr ⟨fun hal => hdisj a hal hmem_a, hlnd⟩
      · intro b hb
        rcases List.mem_cons.mp hb with rfl | hb
        · exact hbound _ hmem_a
        · exact hlbound _ hb
      · intro b hb
        rcases List.mem_cons.mp hb with rfl | hb
        · exact (List.nodup_cons.mp hnd).1
        · exact fun hbf => hdisj b hb (List.mem_cons_of_mem _ hbf)
  | allocFail h =>
    exact ⟨fl, ⟨hhead, hlink⟩, hnd, hbound, hlnd, hlbound, hdisj, hlen⟩
  | @dealloc _ _ a hmem =>
    have ha_notfl : a ∉ fl := hdisj a hmem
    have haN : a < N := hlbound a hmem
    rw [deallocate_push]
    refine ⟨a :: fl, ⟨rfl, ?_⟩, List.nodup_cons.mpr ⟨ha_notfl, hnd⟩, ?_, hlnd.erase a, ?_, ?_,
      by rw [List.length_set]; exact hlen⟩
    · intro j i hj
      cases j with
      | zero =>
        rw [List.getElem?_cons_zero] at hj
        obtain rfl : a = i := Option.some.inj hj
        rw [List.getElem?_set_self (hlen ▸ haN), List.getElem?_cons_succ,
          ← List.head?_eq_getElem?, ← hhead]
      | succ k =>
        rw [List.getElem?_cons_succ] at hj
        have hia : i ≠ a := fun hia => ha_notfl (hia ▸ List.getElem?_mem hj)
        rw [List.getElem?_set_ne (Ne.symm hia), List.getElem?_cons_succ]
        exact hlink k i hj
    · intro i hi
      rcases List.mem_cons.mp hi with rfl | hi
      · exact haN
      · exact hbound i hi
    · exact fun b hb => hlbound b (List.mem_of_mem_erase hb)
    · intro b hb
      have hbl : b ∈ live := List.mem_of_mem_erase hb
      have hba : b ≠ a := fun hba => hlnd.not_mem_erase (hba ▸ hb)
      intro hbin
      rcases List.mem_cons.mp hbin with rfl | hbin
      · exact hba rfl
      · exact hdisj b hbl hbin
  | deallocNull =>
    exact ⟨fl, ⟨hhead, hlink⟩, hnd, hbound, hlnd, hlbound, hdisj, hlen⟩
  | deallocBadCount hn =>
    simp only [PoolAllocator.deallocate, if_pos hn]
    exact ⟨fl, ⟨hhead, hlink⟩, hnd, hbound, hlnd, hlbound, hdisj, hlen⟩

/-- Claim C8: in every state reachable from a freshly default-constructed
allocator by any sequence of `allocate`/`deallocate` calls respecting the
documented precondition (deallocate only on addresses previously returned
by `allocate` on this instance and not currently free), the free chain is
represented by a duplicate-free index list (hence contains no cycle),
every chain node is a slot inside the owned region, and no two
simultaneously live allocations have the same address. -/
theorem reachable_invariant (α : Type) (N : Nat) (hN : 0 < N)
    (p : PoolAllocator α) (live : List Nat)
    (h : Relation.ReflTransGen (Step α) (mkFresh α N, []) (p, live)) :
    ∃ fl : List Nat, ChainRep p fl ∧ fl.Nodup ∧ (∀ i ∈ fl, i < N) ∧ live.Nodup := by
  suffices hgood : ∀ s : PoolAllocator α × List Nat,
      Relation.ReflTransGen (Step α) (mkFresh α N, []) s → GoodState N s.1 s.2 by
    obtain ⟨fl, h1, h2, h3, h4, _⟩ := hgood (p, live) h
    exact ⟨fl, h1, h2, h3, h4⟩
  intro s hs
  induction hs with
  | refl =>
    exact ⟨List.range N, mkFresh_chainRep hN, List.nodup_range N,
      fun i hi => List.mem_range.mp hi, List.nodup_nil,
      fun a ha => absurd ha (List.not_mem_nil a),
      fun a ha => absurd ha (List.not_mem_nil a), mkFresh_slots_length α N⟩
  | @tail b c hab hbc ih =>
    obtain ⟨p1, l1⟩ := b
    obtain ⟨p2, l2⟩ := c
    exact goodState_step ih hbc

/-- Witness for `reachable_invariant`: the freshly constructed capacity-1
pool itself, reached in zero steps. -/
theorem reachable_invariant_witness :
    ∃ fl : List Nat, ChainRep (mkFresh Nat 1) fl ∧ fl.Nodup ∧
      (∀ i ∈ fl, i < 1) ∧ ([] : List Nat).Nodup :=
  reachable_invariant Nat 1 (by decide) (mkFresh Nat 1) [] Relation.ReflTransGen.refl

/-! ### Copy-construction fidelity -/

theorem nodup_bounded_length (fl : List Nat) (N : Nat) (hnd : fl.Nodup)
    (hbound : ∀ i ∈ fl, i < N) : fl.length ≤ N := by
  classical
  have h1 : fl.toFinset.card = fl.length := List.toFinset_card_of_nodup hnd
  have h2 : fl.toFinset ⊆ Finset.range N := by
    intro i hi
    rw [Finset.mem_range]
    exact hbound i (List.mem_toFinset.mp hi)
  calc fl.length = fl.toFinset.card := h1.symm
    _ ≤ (Finset.range N).card := Finset.card_le_card h2
    _ = N := Finset.card_range N

theorem chainRepAt_walkChain {slots : List (Chunk α)} {head : Option Nat} {fl : List Nat}
    (h : ChainRepAt slots head fl) (fuel : Nat) (hfuel : fl.length ≤ fuel) :
    walkChain slots head fuel = fl := by
  induction fl generalizing head fuel with
  | nil =>
    obtain ⟨h1, _⟩ := h
    subst h1
    cases fuel <;> rfl
  | cons i t ih =>
    obtain ⟨h1, h2⟩ := h
    rw [List.head?_cons] at h1
    subst h1
    cases fuel with
    | zero => simp at hfuel
    | succ f =>
      rw [walkChain]
      congr 1
      exact ih (chainRepAt_tail h2) f (by simpa using hfuel)

theorem copyElems_some_ok (srcSlots : List (Chunk α)) (freeIdxs : List Nat) :
    ∀ (idxs : List Nat) (dst : List (Chunk α)) (copied : List Nat),
    (∀ i ∈ idxs, i ∉ freeIdxs → ∃ v, srcSlots[i]? = some (Chunk.elem v)) →
    (∀ i ∈ idxs, i < dst.length) →
    ∃ d : List (Chunk α),
      copyElems some srcSlots freeIdxs idxs dst copied = .ok d ∧
      d.length = dst.length ∧
      (∀ j, j ∉ idxs → d[j]? = dst[j]?) ∧
      (∀ j v, j ∈ idxs → j ∉ freeIdxs → srcSlots[j]? = some (Chunk.elem v) →
        d[j]? = some (Chunk.elem v)) := by
  intro idxs
  induction idxs with
  | nil =>
    intro dst copied _ _
    exact ⟨dst, rfl, rfl, fun _ _ => rfl, fun j v hj => absurd hj (List.not_mem_nil j)⟩
  | cons i rest ih =>
    intro dst copied hlive hlt
    by_cases hfree : i ∈ freeIdxs
    · obtain ⟨d, h1, h2, h3, h4⟩ := ih dst copied
        (fun j hj hjf => hlive j (List.mem_cons_of_mem _ hj) hjf)
        (fun j hj => hlt j (List.mem_cons_of_mem _ hj))
      refine ⟨d, ?_, h2, ?_, ?_⟩
      · rw [copyElems, if_pos hfree]
        exact h1
      · intro j hj
        exact h3 j (fun hjr => hj (List.mem_cons_of_mem _ hjr))
      · intro j v hj hjf hsrc
        rcases List.mem_cons.mp hj with rfl | hjr
        · exact absurd hfree hjf
        · exact h4 j v hjr hjf hsrc
    · obtain ⟨v, hv⟩ := hlive i (List.mem_cons_self i rest) hfree
      have hilen : i < dst.length := hlt i (List.mem_cons_self i rest)
      obtain ⟨d, h1, h2, h3, h4⟩ := ih (dst.set i (Chunk.elem v)) (copied ++ [i])
        (fun j hj hjf => hlive j (List.mem_cons_of_mem _ hj) hjf)
        (fun j hj => by rw [List.length_set]; exact hlt j (List.mem_cons_of_mem _ hj))
      refine ⟨d, ?_, by rw [h2, List.length_set], ?_, ?_⟩
      · rw [copyElems, if_neg hfree, hv]
        exact h1
      · intro j hj
        have hjr : j ∉ rest := fun hr => hj (List.mem_cons_of_mem _ hr)
        have hji : j ≠ i := fun hji => hj (hji ▸ List.mem_cons_self i rest)
        rw [h3 j hjr, List.getElem?_set_ne (Ne.symm hji)]
      · intro j w hj hjf hsrc
        by_cases hjr : j ∈ rest
        · exact h4 j w hjr hjf hsrc
        · have hji : j = i := by
            rcases List.mem_cons.mp hj with rfl | hr
            · rfl
            · exact absurd hr hjr
          subst hji
          rw [hv] at hsrc
          obtain rfl : v = w := Chunk.elem.inj (Option.some.inj hsrc)
          rw [h3 j hjr, List.getElem?_set_self hilen]

theorem rebuildChain_spec (fl : List Nat) :
    ∀ dst : List (Chunk α), fl.Nodup → (∀ i ∈ fl, i < dst.length) →
    (rebuildChain dst fl).length = dst.length ∧
    (∀ j, j ∉ fl → (rebuildChain dst fl)[j]? = dst[j]?) ∧
    (∀ k i, fl[k]? = some i →
      (rebuildChain dst fl)[i]? = some (Chunk.link fl[(k + 1)]?)) := by
  induction fl with
  | nil =>
    intro dst _ _
    refine ⟨rfl, fun _ _ => rfl, fun k i hk => ?_⟩
    rw [List.getElem?_eq_none (by simp : ([] : List Nat).length ≤ k)] at hk
    exact Option.noConfusion hk
  | cons i rest ih =>
    intro dst hnd hbound
    cases rest with
    | nil =>
      have hi : i < dst.length := hbound i (List.mem_cons_self i [])
      refine ⟨List.length_set dst i _, ?_, ?_⟩
      · intro j hj
        have hji : j ≠ i := fun hji => hj (hji ▸ List.mem_cons_self i [])
        exact List.getElem?_set_ne (Ne.symm hji)
      · intro k m hk
        cases k with
        | zero =>
          rw [List.getElem?_cons_zero] at hk
          obtain rfl : i = m := Option.some.inj hk
          rw [show rebuildChain dst [i] = dst.set i (Chunk.link none) from rfl,
            List.getElem?_set_self hi]
          rfl
        | succ k2 =>
          rw [List.getElem?_cons_succ, List.getElem?_eq_none (by simp)] at hk
          exact Option.noConfusion hk
    | cons b rest2 =>
      have hnotmem : i ∉ b :: rest2 := (List.nodup_cons.mp hnd).1
      have hnd2 : (b :: rest2).Nodup := (List.nodup_cons.mp hnd).2
      have hi : i < dst.length := hbound i (List.mem_cons_self _ _)
      have hbound2 : ∀ m ∈ b :: rest2, m < (dst.set i (Chunk.link (some b))).length := by
        intro m hm
        rw [List.length_set]
        exact hbound m (List.mem_cons_of_mem _ hm)
      obtain ⟨h1, h2, h3⟩ := ih (dst.set i (Chunk.link (some b))) hnd2 hbound2
      rw [show rebuildChain dst (i :: b :: rest2) =
        rebuildChain (dst.set i (Chunk.link (some b))) (b :: rest2) from rfl]
      refine ⟨by rw [h1, List.length_set], ?_, ?_⟩
      · intro j hj
        have hji : j ≠ i := fun hji => hj (hji ▸ List.mem_cons_self _ _)
        have hjr : j ∉ b :: rest2 := fun hr => hj (List.mem_cons_of_mem _ hr)
        rw [h2 j hjr, List.getElem?_set_ne (Ne.symm hji)]
      · intro k m hk
        cases k with
        | zero =>
          rw [List.getElem?_cons_zero] at hk
          obtain rfl : i = m := Option.some.inj hk
          rw [h2 i hnotmem, List.getElem?_set_self hi]
          simp
        | succ k2 =>
          rw [List.getElem?_cons_succ] at hk
          rw [h3 k2 m hk]
          simp

/-- Claim C2: copy-construction from a source with a valid region whose
free chain is the duplicate-free, in-region index sequence `fl` and whose
live slots (those not on the chain) hold constructed elements, with an
element copy constructor that produces an equal value, yields an
independent allocator that (1) holds at each live index `i` an element
equal to the source's, (2) has a free chain visiting exactly the same
index sequence `fl` in the same order and terminating at the same point,
and (3) consequently admits exactly `fl.length = N - k` further successful
`allocate(1)` calls (where `k` is the number of live slots) before it too
reports exhaustion. -/
theorem copy_fidelity (src : PoolAllocator α) (fl : List Nat)
    (hvalid : src.memory_block = true)
    (hrep : ChainRep src fl) (hnd : fl.Nodup)
    (hbound : ∀ i ∈ fl, i < src.slots.length)
    (hlive : ∀ i, i < src.slots.length → i ∉ fl →
      ∃ v, src.slots[i]? = some (Chunk.elem v)) :
    ∃ dst : PoolAllocator α,
      copyCtor false some src = CopyResult.ok dst ∧
      dst.memory_block = true ∧
      dst.slots.length = src.slots.length ∧
      (∀ i v, i ∉ fl → src.slots[i]? = some (Chunk.elem v) →
        dst.slots[i]? = some (Chunk.elem v)) ∧
      ChainRep dst fl ∧
      allocRun dst fl.length = some (fl, { dst with free_list := none }) ∧
      ({ dst with free_list := none } : PoolAllocator α).allocate 1 =
        .error AllocError.badAlloc := by
  have hlenN := nodup_bounded_length fl src.slots.length hnd hbound
  have hwalk : walkChain src.slots src.free_list src.slots.length = fl :=
    chainRepAt_walkChain hrep src.slots.length hlenN
  obtain ⟨d, h1, h2, h3, h4⟩ := copyElems_some_ok src.slots fl
    (List.range src.slots.length)
    (List.replicate src.slots.length (Chunk.link none)) []
    (fun i hi hif => hlive i (List.mem_range.mp hi) hif)
    (fun i hi => by rw [List.length_replicate]; exact List.mem_range.mp hi)
  have hdlen : d.length = src.slots.length := by rw [h2, List.length_replicate]
  obtain ⟨r1, r2, r3⟩ := rebuildChain_spec fl d hnd (fun i hi => hdlen ▸ hbound i hi)
  have hctor : copyCtor false some src =
      CopyResult.ok { memory_block := true, slots := rebuildChain d fl,
                      free_list := fl.head? } := by
    simp only [copyCtor, Bool.false_eq_true, if_false, hwalk, h1]
  have hrep2 : ChainRep
      ({ memory_block := true, slots := rebuildChain d fl,
         free_list := fl.head? } : PoolAllocator α) fl :=
    ⟨rfl, fun j i hj => r3 j i hj⟩
  refine ⟨_, hctor, rfl, by rw [r1, hdlen], ?_, hrep2, ?_, allocate_none _ rfl⟩
  · intro i v hif hsrc
    have hiN : i < src.slots.length := by
      rcases List.getElem?_eq_some.mp hsrc with ⟨h, _⟩
      exact h
    have hd : d[i]? = some (Chunk.elem v) :=
      h4 i v (List.mem_range.mpr hiN) hif hsrc
    show (rebuildChain d fl)[i]? = _
    rw [r2 i hif, hd]
  · exact chainRep_allocRun _ fl hrep2

/-- Witness for `copy_fidelity`: a capacity-2 source with slot 0 live
(element 7) and the one-slot free chain `[1]`. -/
theorem copy_fidelity_witness :
    ∃ dst : PoolAllocator Nat,
      copyCtor false some
        (⟨true, [Chunk.elem 7, Chunk.link none], some 1⟩ : PoolAllocator Nat) =
        CopyResult.ok dst ∧
      dst.memory_block = true ∧
      dst.slots.length =
        (⟨true, [Chunk.elem 7, Chunk.link none], some 1⟩ :
          PoolAllocator Nat).slots.length ∧
      (∀ i v, i ∉ [1] →
        (⟨true, [Chunk.elem 7, Chunk.link none], some 1⟩ :
          PoolAllocator Nat).slots[i]? = some (Chunk.elem v) →
        dst.slots[i]? = some (Chunk.elem v)) ∧
      ChainRep dst [1] ∧
      allocRun dst ([1] : List Nat).length = some ([1], { dst with free_list := none }) ∧
      ({ dst with free_list := none } : PoolAllocator Nat).allocate 1 =
        .error AllocError.badAlloc := by
  refine copy_fidelity (⟨true, [Chunk.elem 7, Chunk.link none], some 1⟩ : PoolAllocator Nat)
    [1] rfl ⟨rfl, ?_⟩ (by decide) (by decide) ?_
  · intro j i hj
    cases j with
    | zero =>
      rw [List.getElem?_cons_zero] at hj
      obtain rfl : (1 : Nat) = i := Option.some.inj hj
      decide
    | succ k =>
      rw [List.getElem?_cons_succ, List.getElem?_eq_none (by simp)] at hj
      exact Option.noConfusion hj
  · intro i hi hif
    obtain rfl : i = 0 := by
      have h1 : i ≠ 1 := fun h => hif (by rw [h]; exact List.mem_cons_self 1 [])
      simp only [List.length_cons, List.length_nil] at hi
      omega
    exact ⟨7, rfl⟩
